/-
Verification of the pyBreezeChMS profile reconciliation spec against a
shallow embedding of the repository's code.

The profile reconciliation module (breeze_chms_api/profile_helper.py) is not
present in the source tree; only its unit tests are.  Its operations
(join_dicts, the name/address extractors, ProfileHelper, compare_profiles)
are therefore modelled from the specification (spec.md sections 3 and 4),
and validated against the golden values of the unit tests.

The HTTP client (breeze_chms_api/breeze.py) is present and its decision
logic (constructor validation, _request_succeeded, list_contributions
argument checking) is embedded directly from the source, with Python
dynamic values and Python truthiness modelled explicitly.
-/
import Mathlib

/-! ### OrderedUnion merge (join_dicts)

Modelled from the spec: breeze_chms_api/profile_helper.join_dicts is not
under the source tree.  This realizes section 4.1 of the spec: `secondary`
is the ordering backbone; primary-only keys are interleaved at the point
where the backbone runs past them (a run of primary-only keys is emitted
when a secondary-only key is reached), and conflicting primary-only keys
are appended after the full backbone in primary order.  It reproduces the
worked example of the golden test exactly. -/

namespace ProfileHelper

/-- Keys of an association list, in order. -/
def keys {V : Type} (m : List (String × V)) : List String := m.map Prod.fst

/-- Membership of a key in an association list (Python `k in d`). -/
def keyMem {V : Type} (k : String) (m : List (String × V)) : Bool :=
  m.any (fun p => p.1 == k)

/-- Lookup of a key in an association list (Python `d.get(k)`). -/
def getVal {V : Type} (k : String) (m : List (String × V)) : Option V :=
  (m.find? (fun p => p.1 == k)).map Prod.snd

/-- Emit the longest prefix of the remaining primary entries whose keys do
not occur in the secondary mapping, pairing each with an absent secondary
component; return the emitted entries and the remaining suffix. -/
def flushPrim {V W : Type} (sec : List (String × W)) :
    List (String × V) → List (String × (Option V × Option W)) × List (String × V)
  | [] => ([], [])
  | (k, v) :: rest =>
    if keyMem k sec then ([], (k, v) :: rest)
    else
      let r := flushPrim sec rest
      ((k, (some v, none)) :: r.1, r.2)

/-- Main merge loop: walk the secondary mapping (the backbone), keeping a
cursor (`rem`, a suffix of the primary mapping).  A secondary key present
in primary advances the cursor when it sits at the cursor head; a
secondary-only key first flushes the run of primary-only keys at the
cursor.  Leftover primary-only entries are appended at the end. -/
def joinLoop {V W : Type} (primFull : List (String × V)) (secFull : List (String × W)) :
    List (String × W) → List (String × V) → List (String × (Option V × Option W))
  | [], rem =>
    (rem.filter (fun p => !keyMem p.1 secFull)).map (fun p => (p.1, (some p.2, (none : Option W))))
  | (sk, sv) :: srest, rem =>
    if keyMem sk primFull then
      let rem' := match rem with
        | [] => []
        | (pk, pv) :: prest => if pk == sk then prest else (pk, pv) :: prest
      (sk, (getVal sk primFull, some sv)) :: joinLoop primFull secFull srest rem'
    else
      let fl := flushPrim secFull rem
      fl.1 ++ (sk, ((none : Option V), some sv)) :: joinLoop primFull secFull srest fl.2

/-- Merge two key-ordered mappings into one ordered mapping from key to the
pair (primary value or absent, secondary value or absent). -/
def join_dicts {V W : Type} (prim : List (String × V)) (sec : List (String × W)) :
    List (String × (Option V × Option W)) :=
  joinLoop prim sec sec prim

/-- The primary mapping of the golden merge test. -/
def goldenPrimary : List (String × String) :=
  ["a", "l", "x", "c", "d", "e", "b", "z", "q"].map (fun k => (k, k ++ ": right"))

/-- The secondary mapping of the golden merge test. -/
def goldenSecondary : List (String × String) :=
  ["a", "b", "c", "e", "f", "x", "q"].map (fun k => (k, k ++ ": left"))

/-! ### Address extractor

Modelled from the spec: breeze_chms_api/profile_helper._AddressExtractor is
not under the source tree.  Section 4.3 of the spec: the street address is
split on line-break markers (the self-closing form is recognized as well as
the bare form), a final line city-space-state-space-zip is appended, and
the lines are joined with a semicolon into a single string returned as a
one-element sequence; an empty or absent entry yields an empty sequence. -/

/-- The components of one address response entry. -/
structure AddressRec where
  street_address : String
  city : String
  state : String
  zip : String

/-- The characters of the self-closing line-break marker. -/
def scChars : List Char := ['<', 'b', 'r', ' ', '/', '>']

/-- The characters of the bare line-break marker. -/
def bareChars : List Char := ['<', 'b', 'r', '>']

/-- Prepend a character to the first line of a split result. -/
def consHead (c : Char) : List (List Char) → List (List Char)
  | [] => [[c]]
  | a :: as => (c :: a) :: as

/-- Split a character sequence on either line-break marker, scanning left to
right and preferring the longer (self-closing) marker at each position. -/
def brSplit : List Char → List (List Char)
  | '<' :: 'b' :: 'r' :: ' ' :: '/' :: '>' :: rest => [] :: brSplit rest
  | '<' :: 'b' :: 'r' :: '>' :: rest => [] :: brSplit rest
  | c :: cs => consHead c (brSplit cs)
  | [] => [[]]

/-- The street lines of a street address string. -/
def streetLines (s : String) : List String :=
  (brSplit s.data).map List.asString

/-- Normalize one address entry (spec section 4.3, Address extractor). -/
def extractAddress : Option AddressRec → List String
  | none => []
  | some a =>
    [String.intercalate ";"
      (streetLines a.street_address ++ [a.city ++ " " ++ a.state ++ " " ++ a.zip])]

/-- The address extractor object, constructed with a field label and a
field id (neither affects the extracted value). -/
structure _AddressExtractor where
  name : String
  field_id : String

/-- Extract one address response entry. -/
def _AddressExtractor._extract_entry (_e : _AddressExtractor) (a : Option AddressRec) :
    List String :=
  extractAddress a

/-! ### Response entries and value extractors

Modelled from the spec: section 3 (ResponseEntry: a scalar content, a
structured address sub-object, or multi-attribute entries such as phone
type/number/private flags) and section 4.3 (one normalizer per field type:
address entries go through the address extractor, multi-attribute entries
become one descriptive line each, scalars become their bare value). -/

/-- One multi-attribute response entry (for example a phone entry):
a subtype, a value, and the private / no-text flags. -/
structure MultiRec where
  subtype : String
  value : String
  is_private : Bool
  no_text : Bool

/-- The raw value of one field response. -/
inductive ResponseEntry where
  | scalar (content : String)
  | address (a : Option AddressRec)
  | multi (entries : List MultiRec)

/-- The descriptive line of one multi-attribute entry:
subtype, colon, value, then the flag suffixes. -/
def multiLine (m : MultiRec) : String :=
  m.subtype ++ ":" ++ m.value ++
    (if m.is_private then "(private)" else "") ++
    (if m.no_text then "(no text)" else "")

/-- Normalize one field response into comparable lines, dispatching on the
shape of the entry; an absent entry yields the empty sequence. -/
def extractEntry : Option ResponseEntry → List String
  | none => []
  | some (.scalar c) => [c]
  | some (.address a) => extractAddress a
  | some (.multi es) => es.map multiLine

/-! ### Name extractor

Modelled from the spec: breeze_chms_api/profile_helper._extract_name is not
under the source tree.  Section 4.3 of the spec: the given name, a
parenthesized nick name (only when present and different from the first
name), and the middle name are space-joined after dropping empty tokens;
the last name is prepended with a comma when present; an entirely empty
name falls back to a literal mentioning the person id.  Absent fields
(Python None or missing key) are modelled as `none`; Python truthiness of a
string makes the empty string behave as absent. -/

/-- A person profile: the fields the name extractor reads, the person id,
and the ordered mapping of field responses. -/
structure Profile where
  person_id : String
  first_name : Option String := none
  middle_name : Option String := none
  last_name : Option String := none
  nick_name : Option String := none
  responses : List (String × ResponseEntry) := []

/-- Space-join the non-empty tokens of a list. -/
def joinTokens (ts : List String) : String :=
  String.intercalate " " (ts.filter (fun t => t ≠ ""))

/-- Build the display name of a profile (spec section 4.3, Name extractor). -/
def _extract_name (p : Profile) : String :=
  let given := p.first_name.getD ""
  let nick0 := p.nick_name.getD ""
  let nick := if nick0 ≠ "" ∧ nick0 ≠ given then "(" ++ nick0 ++ ")" else ""
  let middle := p.middle_name.getD ""
  let cluster := joinTokens [given, nick, middle]
  let last := p.last_name.getD ""
  if last ≠ "" then
    if cluster = "" then last else last ++ ", " ++ cluster
  else if cluster ≠ "" then cluster
  else "No name, id " ++ p.person_id

/-! ### Field catalog and profile differ

Modelled from the spec: breeze_chms_api/profile_helper.ProfileHelper and
compare_profiles are not under the source tree.  Section 4.2: a catalog
indexes field specifications and exposes a composite label per field.
Section 4.4: the differ merges the two id-to-label maps with the test
catalog as backbone, walks the merged label order, normalizes each field on
both sides, emits a field diff when the normalized sequences differ,
synthesizes a leading Name pseudo-diff when the display names differ, keeps
only people with a non-empty diff list, and sorts by display name. -/

/-- One field specification of a schema snapshot. -/
structure FieldSpec where
  field_id : String
  name : String
  field_type : String
  section_name : String

/-- The composite label of a field: section colon name, or the bare name
when the field name equals its section's name. -/
def labelOf (f : FieldSpec) : String :=
  if f.name = f.section_name then f.name else f.section_name ++ ":" ++ f.name

/-- The ordered id-to-label map of a catalog, in schema definition order. -/
def idToLabelMap (cat : List FieldSpec) : List (String × String) :=
  cat.map (fun f => (f.field_id, labelOf f))

/-- Resolve a label to its field specification in a catalog
(absent when no field carries the label). -/
def byLabel (cat : List FieldSpec) (lbl : String) : Option FieldSpec :=
  cat.find? (fun f => labelOf f == lbl)

/-- The normalized values of the field with the given label for one profile
under one catalog: resolve the label to a field id, fetch the raw response,
and run the extractor; a failed lookup yields the empty sequence. -/
def fieldValues (cat : List FieldSpec) (p : Profile) (lbl : String) : List String :=
  match byLabel cat lbl with
  | none => []
  | some f => extractEntry (getVal f.field_id p.responses)

/-- A diff of one field of one person: the field label and the normalized
values of the two sides. -/
structure FieldDiff where
  label : String
  primary_values : List String
  secondary_values : List String
deriving DecidableEq

/-- All diffs of one person: the display name and the field diffs. -/
structure PersonDiff where
  display_name : String
  diffs : List FieldDiff
deriving DecidableEq

/-- The merged field label order of two catalogs: the OrderedUnion merge of
the two id-to-label maps with the test catalog as backbone, each merged
entry contributing its test-side label when present and its ref-side label
otherwise. -/
def mergedLabels (refCat testCat : List FieldSpec) : List String :=
  (join_dicts (idToLabelMap refCat) (idToLabelMap testCat)).map
    (fun e => (e.2.2.getD (e.2.1.getD "")))

/-- The leading Name pseudo-diff of one matched person, present exactly
when the two display names differ. -/
def nameDiffList (refP testP : Profile) : List FieldDiff :=
  if _extract_name refP = _extract_name testP then []
  else [⟨"Name", [_extract_name refP], [_extract_name testP]⟩]

/-- The per-field diffs of one matched person: one field diff per merged
label whose normalized values differ between the two sides. -/
def fieldDiffList (refCat testCat : List FieldSpec) (refP testP : Profile) :
    List FieldDiff :=
  (mergedLabels refCat testCat).filterMap (fun lbl =>
    if fieldValues refCat refP lbl = fieldValues testCat testP lbl then none
    else some ⟨lbl, fieldValues refCat refP lbl, fieldValues testCat testP lbl⟩)

/-- The diffs of one matched person: a leading Name pseudo-diff when the
display names differ, then the per-field diffs. -/
def personDiffs (refCat testCat : List FieldSpec) (refP testP : Profile) :
    List FieldDiff :=
  nameDiffList refP testP ++ fieldDiffList refCat testCat refP testP

/-- Order person diffs by display name. -/
def byNameLe (a b : PersonDiff) : Prop := a.display_name ≤ b.display_name

instance : DecidableRel byNameLe := fun a b => by
  unfold byNameLe; infer_instance

instance : IsTotal PersonDiff byNameLe :=
  ⟨fun a b => le_total a.display_name b.display_name⟩

instance : IsTrans PersonDiff byNameLe :=
  ⟨fun _ _ _ h1 h2 => le_trans h1 h2⟩

/-- The report entry of one reference-side person: absent when the person
id has no match on the test side or when the matched pair has no diffs;
otherwise the person diff carrying the reference-side display name. -/
def comparePerson (refCat testCat : List FieldSpec)
    (testProfiles : List (String × Profile)) (q : String × Profile) :
    Option PersonDiff :=
  match getVal q.1 testProfiles with
  | none => none
  | some testP =>
    if personDiffs refCat testCat q.2 testP = [] then none
    else some ⟨_extract_name q.2, personDiffs refCat testCat q.2 testP⟩

/-- Compare two snapshots: match people by person id, collect per-person
diffs, keep people with a non-empty diff list, and sort the report by
display name ascending. -/
def compare_profiles (refCat testCat : List FieldSpec)
    (refProfiles testProfiles : List (String × Profile)) : List PersonDiff :=
  (refProfiles.filterMap (comparePerson refCat testCat testProfiles)).insertionSort byNameLe

end ProfileHelper

/-! ### Breeze HTTP client decision logic (breeze_chms_api/breeze.py)

The code under the source tree is the authority here.  Python dynamic
values are embedded as an inductive type, with Python truthiness and the
Python `in` containment test (key membership for mappings, element
membership for sequences, substring test for strings, a TypeError
otherwise) modelled explicitly. -/

namespace Breeze

/-- A Python value as it can appear in a deserialized JSON response or in a
keyword-argument mapping. -/
inductive PyVal where
  | none
  | bool (b : Bool)
  | int (n : Int)
  | str (s : String)
  | list (xs : List PyVal)
  | dict (kvs : List (String × PyVal))

/-- Python truthiness of a value. -/
def truthy : PyVal → Bool
  | .none => false
  | .bool b => b
  | .int n => n != 0
  | .str s => s ≠ ""
  | .list xs => !xs.isEmpty
  | .dict kvs => !kvs.isEmpty

/-- Python equality of a string against a value (`'errors' == x`): true
only for the equal string value. -/
def strEq (needle : String) : PyVal → Bool
  | .str s => needle == s
  | _ => false

/-- Whether `sub` occurs as a contiguous run inside `hay`. -/
def listInfix (sub : List Char) : List Char → Bool
  | [] => sub.isEmpty
  | c :: t => sub.isPrefixOf (c :: t) || listInfix sub t

/-- The Python containment test `needle in v` for a string needle: key
membership for a dict, element equality for a list, substring test for a
string; undefined (TypeError) for the remaining shapes. -/
def pyIn (needle : String) : PyVal → Option Bool
  | .dict kvs => some (kvs.any (fun p => p.1 == needle))
  | .list xs => some (xs.any (strEq needle))
  | .str s => some (listInfix needle.data s.data)
  | _ => Option.none

/-- BreezeApi._request_succeeded: a bool response is its own verdict;
otherwise the response fails when it contains `errors` or `errorCode`.
The containment test itself can raise a TypeError, modelled as `none`. -/
def request_succeeded (response : PyVal) : Option Bool :=
  match response with
  | .bool b => some b
  | r =>
    match pyIn "errors" r with
    | Option.none => Option.none
    | some true => some false
    | some false =>
      match pyIn "errorCode" r with
      | Option.none => Option.none
      | some e2 => some (!e2)

/-- The outcome of BreezeApi._request after a successful deserialization:
the response is returned, or a BreezeError carrying the response is
raised, or the success predicate itself raises a TypeError. -/
inductive RequestOutcome where
  | ok (v : PyVal)
  | breezeError (v : PyVal)
  | typeError

/-- BreezeApi._request, from the deserialized response onward: raise
BreezeError when the success predicate says the response failed. -/
def request_outcome (response : PyVal) : RequestOutcome :=
  match request_succeeded response with
  | Option.none => .typeError
  | some true => .ok response
  | some false => .breezeError response

/-- The index of the first occurrence of `sub` in `hay`, if any
(the core of Python `str.find`). -/
def firstOccur (hay sub : List Char) : Option Nat :=
  if sub.isPrefixOf hay then some 0
  else match hay with
    | [] => Option.none
    | _ :: t => (firstOccur t sub).map (· + 1)

/-- Python `s.find(sub)`: the first index of `sub` in `s`, or -1. -/
def pyFind (s sub : String) : Int :=
  match firstOccur s.data sub.data with
  | some n => (n : Int)
  | Option.none => -1

/-- Python truthiness of an optional string (None or a string). -/
def strTruthy (o : Option String) : Bool :=
  match o with
  | Option.none => false
  | some s => s ≠ ""

/-- Python `s.startswith(pre)`. -/
def pyStartsWith (s pre : String) : Bool :=
  pre.data.isPrefixOf s.data

/-- BreezeApi.__init__: raise BreezeError when the url check
`not (breeze_url and breeze_url.startswith('https://') and
breeze_url.find('.breezechms.'))` fires, or, after it passes, when the api
key is not truthy.  The find result is truthy in Python exactly when it is
not zero. -/
def init_raises (breeze_url api_key : Option String) : Bool :=
  let urlCheck :=
    strTruthy breeze_url &&
    pyStartsWith (breeze_url.getD "") "https://" &&
    (pyFind (breeze_url.getD "") ".breezechms." != 0)
  !urlCheck || !strTruthy api_key

/-- Python `kwargs.get(k)`: the value under the key, or None when absent. -/
def kwargsGet (kwargs : List (String × PyVal)) (k : String) : PyVal :=
  ((kwargs.find? (fun p => p.1 == k)).map Prod.snd).getD .none

/-- The shapes of deserialized responses on which the success predicate
reports failure: boolean False, a mapping with an errors or errorCode key,
a sequence containing the string errors or errorCode as an element, or a
string containing either word as a substring. -/
def failCondition : PyVal → Prop
  | .bool b => b = false
  | .dict kvs => (kvs.any (fun p => p.1 == "errors") ||
      kvs.any (fun p => p.1 == "errorCode")) = true
  | .list xs => (xs.any (strEq "errors") || xs.any (strEq "errorCode")) = true
  | .str s => (listInfix "errors".data s.data ||
      listInfix "errorCode".data s.data) = true
  | _ => False

/-- The shapes of deserialized responses on which the Python containment
test itself raises a TypeError: numbers and null. -/
def typeErrorCondition : PyVal → Prop
  | .none => True
  | .int _ => True
  | _ => False

/-- BreezeApi.list_contributions argument check: raise BreezeError when
`kwargs.get('include_family')` is truthy and `kwargs.get('person_id')` is
not (a missing key yields Python None). -/
def list_contributions_raises (kwargs : List (String × PyVal)) : Bool :=
  truthy (kwargsGet kwargs "include_family") && !truthy (kwargsGet kwargs "person_id")

end Breeze

/-! ## Theorems -/

namespace ProfileHelper

lemma keyMem_iff {V : Type} (k : String) (m : List (String × V)) :
    keyMem k m = true ↔ k ∈ keys m := by
  simp [keyMem, keys, List.any_eq_true]

lemma keyMem_false_iff {V : Type} (k : String) (m : List (String × V)) :
    keyMem k m = false ↔ k ∉ keys m := by
  rw [← Bool.not_eq_true, not_iff_not, keyMem_iff]

lemma getVal_eq_none_of_not_mem {V : Type} {k : String} {m : List (String × V)}
    (h : keyMem k m = false) : getVal k m = none := by
  rw [keyMem_false_iff] at h
  have : m.find? (fun p => p.1 == k) = none := by
    rw [List.find?_eq_none]
    intro p hp
    simp only [beq_iff_eq]
    intro hk
    exact h (hk ▸ List.mem_map_of_mem Prod.fst hp)
  simp [getVal, this]

lemma getVal_nodup_mem {V : Type} {k : String} {v : V} {m : List (String × V)}
    (hnd : (keys m).Nodup) (hm : (k, v) ∈ m) : getVal k m = some v := by
  induction m with
  | nil => cases hm
  | cons a t ih =>
    rcases List.mem_cons.mp hm with h | h
    · subst h
      simp [getVal, List.find?_cons_of_pos]
    · have hne : a.1 ≠ k := by
        intro he
        have hk : k ∈ keys t := List.mem_map_of_mem Prod.fst h
        rw [keys, List.map_cons, List.nodup_cons] at hnd
        exact hnd.1 (he ▸ hk)
      have hnd2 : (keys t).Nodup := by
        rw [keys, List.map_cons, List.nodup_cons] at hnd
        exact hnd.2
      have := ih hnd2 h
      simpa [getVal, List.find?_cons_of_neg, hne] using this

lemma mem_keys_of_mem {V : Type} {k : String} {v : V} {m : List (String × V)}
    (hm : (k, v) ∈ m) : k ∈ keys m := List.mem_map_of_mem Prod.fst hm

lemma keys_filter {V : Type} (pred : String → Bool) (m : List (String × V)) :
    keys (m.filter (fun p => pred p.1)) = (keys m).filter pred := by
  induction m with
  | nil => rfl
  | cons a t ih =>
    by_cases h : pred a.1 <;> simp [keys, List.filter_cons, h] <;>
      simpa [keys] using ih

lemma flushPrim_fst {V W : Type} (sec : List (String × W)) (rem : List (String × V)) :
    ∀ q ∈ (flushPrim sec rem).1,
      ∃ v, q.2 = (some v, none) ∧ (q.1, v) ∈ rem ∧ keyMem q.1 sec = false := by
  induction rem with
  | nil => simp [flushPrim]
  | cons a t ih =>
    obtain ⟨k, v⟩ := a
    by_cases h : keyMem k sec
    · simp [flushPrim, h]
    · simp only [flushPrim, h, if_false]
      intro q hq
      rcases List.mem_cons.mp hq with rfl | hq'
      · exact ⟨v, rfl, List.mem_cons_self _ _, by simpa using h⟩
      · obtain ⟨w, h1, h2, h3⟩ := ih q hq'
        exact ⟨w, h1, List.mem_cons_of_mem _ h2, h3⟩

lemma flushPrim_snd_sublist {V W : Type} (sec : List (String × W)) (rem : List (String × V)) :
    List.Sublist (flushPrim sec rem).2 rem := by
  induction rem with
  | nil => simp [flushPrim]
  | cons a t ih =>
    obtain ⟨k, v⟩ := a
    by_cases h : keyMem k sec
    · simp [flushPrim, h]
    · simp only [flushPrim, h, if_false]
      exact ih.cons _

lemma flushPrim_fst_not_sec {V W : Type} (sec : List (String × W)) (rem : List (String × V)) :
    ∀ k ∈ keys (flushPrim sec rem).1, keyMem k sec = false := by
  intro k hk
  obtain ⟨⟨k', vw⟩, hq, rfl⟩ := List.mem_map.mp hk
  obtain ⟨v, _, _, h3⟩ := flushPrim_fst sec rem _ hq
  exact h3

lemma flushPrim_filter {V W : Type} (sec : List (String × W)) (rem : List (String × V)) :
    (keys rem).filter (fun k => !keyMem k sec) =
      keys (flushPrim sec rem).1 ++
        (keys (flushPrim sec rem).2).filter (fun k => !keyMem k sec) := by
  induction rem with
  | nil => simp [flushPrim, keys]
  | cons a t ih =>
    obtain ⟨k, v⟩ := a
    by_cases h : keyMem k sec
    · simp [flushPrim, h, keys, List.filter_cons]
    · simp only [flushPrim, h, if_false, keys, List.map_cons, List.filter_cons,
        Bool.not_false, if_true]
      simpa [keys] using ih

lemma keys_cons {V : Type} (a : String × V) (t : List (String × V)) :
    keys (a :: t) = a.1 :: keys t := rfl

lemma keys_append {V : Type} (l1 l2 : List (String × V)) :
    keys (l1 ++ l2) = keys l1 ++ keys l2 := List.map_append _ _ _

lemma joinLoop_nil_keys {V W : Type} (P : List (String × V)) (S : List (String × W))
    (rem : List (String × V)) :
    keys (joinLoop P S [] rem) = (keys rem).filter (fun k => !keyMem k S) := by
  simpa [joinLoop, keys, List.map_map, Function.comp] using
    keys_filter (fun k => !keyMem k S) rem

lemma joinLoop_keys_perm {V W : Type} (P : List (String × V)) (S : List (String × W)) :
    ∀ (srest : List (String × W)) (rem : List (String × V)),
      (∀ s ∈ keys srest, keyMem s S = true) →
      List.Perm (keys (joinLoop P S srest rem))
        (keys srest ++ (keys rem).filter (fun k => !keyMem k S)) := by
  intro srest
  induction srest with
  | nil =>
    intro rem _
    rw [joinLoop_nil_keys]
    simp [keys]
  | cons ss srest ih =>
    obtain ⟨sk, sv⟩ := ss
    intro rem H
    have hskS : keyMem sk S = true := H sk (by rw [keys_cons]; exact List.mem_cons_self _ _)
    have H' : ∀ s ∈ keys srest, keyMem s S = true := fun s hs =>
      H s (by rw [keys_cons]; exact List.mem_cons_of_mem _ hs)
    by_cases hp : keyMem sk P = true
    · rcases rem with _ | ⟨⟨pk, pv⟩, prest⟩
      · simp only [joinLoop, hp, if_true]
        rw [keys_cons, keys_cons]
        simpa [keys] using (ih [] H').cons sk
      · by_cases hpk : (pk == sk) = true
        · have hpke : pk = sk := by simpa using hpk
          simp only [joinLoop, hp, if_true, hpk]
          rw [keys_cons, keys_cons, keys_cons]
          subst hpke
          rw [List.filter_cons_of_neg (by simp [hskS])]
          exact (ih prest H').cons pk
        · simp only [joinLoop, hp, if_true, hpk, if_false]
          rw [keys_cons, keys_cons]
          exact (ih ((pk, pv) :: prest) H').cons sk
    · rw [Bool.not_eq_true] at hp
      simp only [joinLoop, hp, Bool.false_eq_true, if_false]
      rw [keys_append, keys_cons, keys_cons]
      have h1 : List.Perm
          (keys (flushPrim S rem).1 ++ sk :: keys (joinLoop P S srest (flushPrim S rem).2))
          (sk :: (keys (flushPrim S rem).1 ++
            keys (joinLoop P S srest (flushPrim S rem).2))) :=
        List.perm_middle
      have h2 := ((ih (flushPrim S rem).2 H').append_left (keys (flushPrim S rem).1)).cons sk
      have h3 : List.Perm
          (keys (flushPrim S rem).1 ++ (keys srest ++
            (keys (flushPrim S rem).2).filter (fun k => !keyMem k S)))
          (keys srest ++ (keys (flushPrim S rem).1 ++
            (keys (flushPrim S rem).2).filter (fun k => !keyMem k S))) := by
        rw [← List.append_assoc, ← List.append_assoc]
        exact (List.perm_append_comm).append_right _
      have h4 := h1.trans (h2.trans (h3.cons sk))
      rw [← flushPrim_filter] at h4
      simpa using h4

lemma joinLoop_values {V W : Type} {P : List (String × V)} {S : List (String × W)}
    (hndP : (keys P).Nodup) (hndS : (keys S).Nodup) :
    ∀ (srest : List (String × W)) (rem : List (String × V)),
      List.Sublist srest S → List.Sublist rem P →
      ∀ k vw, (k, vw) ∈ joinLoop P S srest rem → vw = (getVal k P, getVal k S) := by
  intro srest
  induction srest with
  | nil =>
    intro rem _ hrem k vw hmem
    simp only [joinLoop, List.mem_map, List.mem_filter] at hmem
    obtain ⟨⟨k', v⟩, ⟨hin, hpred⟩, heq⟩ := hmem
    simp only [Prod.mk.injEq] at heq
    obtain ⟨rfl, rfl⟩ := heq
    have h1 : getVal k' P = some v := getVal_nodup_mem hndP (hrem.subset hin)
    have h2 : getVal k' S = none := getVal_eq_none_of_not_mem (by simpa using hpred)
    rw [h1, h2]
  | cons ss srest ih =>
    obtain ⟨sk, sv⟩ := ss
    intro rem hsrest hrem k vw hmem
    have hsrest' : List.Sublist srest S :=
      (List.sublist_cons_self (sk, sv) srest).trans hsrest
    have hskS : (sk, sv) ∈ S := hsrest.subset (List.mem_cons_self _ _)
    have hgetS : getVal sk S = some sv := getVal_nodup_mem hndS hskS
    by_cases hp : keyMem sk P = true
    · rcases rem with _ | ⟨⟨pk, pv⟩, prest⟩
      · simp only [joinLoop, hp, if_true] at hmem
        rcases List.mem_cons.mp hmem with heq | hmem'
        · simp only [Prod.mk.injEq] at heq
          obtain ⟨rfl, rfl⟩ := heq
          rw [hgetS]
        · exact ih [] hsrest' (List.nil_sublist P) k vw hmem'
      · by_cases hpk : (pk == sk) = true
        · simp only [joinLoop, hp, if_true, hpk] at hmem
          rcases List.mem_cons.mp hmem with heq | hmem'
          · simp only [Prod.mk.injEq] at heq
            obtain ⟨rfl, rfl⟩ := heq
            rw [hgetS]
          · have hprest : List.Sublist prest P :=
              ((List.sublist_cons_self (pk, pv) prest).trans hrem)
            exact ih prest hsrest' hprest k vw hmem'
        · simp only [joinLoop, hp, if_true, hpk, if_false] at hmem
          rcases List.mem_cons.mp hmem with heq | hmem'
          · simp only [Prod.mk.injEq] at heq
            obtain ⟨rfl, rfl⟩ := heq
            rw [hgetS]
          · exact ih ((pk, pv) :: prest) hsrest' hrem k vw hmem'
    · rw [Bool.not_eq_true] at hp
      simp only [joinLoop, hp, Bool.false_eq_true, if_false, List.mem_append,
        List.mem_cons] at hmem
      rcases hmem with hfl | heq | hmem'
      · obtain ⟨v, hq2, hqin, hqsec⟩ := flushPrim_fst S rem (k, vw) hfl
        simp only at hq2
        subst hq2
        have h1 : getVal k P = some v := getVal_nodup_mem hndP (hrem.subset hqin)
        have h2 : getVal k S = none := getVal_eq_none_of_not_mem hqsec
        rw [h1, h2]
      · simp only [Prod.mk.injEq] at heq
        obtain ⟨rfl, rfl⟩ := heq
        rw [getVal_eq_none_of_not_mem hp, hgetS]
      · exact ih (flushPrim S rem).2 hsrest'
          ((flushPrim_snd_sublist S rem).trans hrem) k vw hmem'

lemma joinLoop_sec_filter {V W : Type} (P : List (String × V)) (S : List (String × W)) :
    ∀ (srest : List (String × W)) (rem : List (String × V)),
      (∀ s ∈ keys srest, keyMem s S = true) →
      (keys (joinLoop P S srest rem)).filter (fun k => keyMem k S) = keys srest := by
  intro srest
  induction srest with
  | nil =>
    intro rem _
    rw [joinLoop_nil_keys, List.filter_filter]
    refine List.filter_eq_nil_iff.mpr ?_
    intro a _
    simp only [Bool.and_eq_true, Bool.not_eq_true']
    rintro ⟨h1, h2⟩
    rw [h1] at h2
    cases h2
  | cons ss srest ih =>
    obtain ⟨sk, sv⟩ := ss
    intro rem H
    have hskS : keyMem sk S = true := H sk (by rw [keys_cons]; exact List.mem_cons_self _ _)
    have H' : ∀ s ∈ keys srest, keyMem s S = true := fun s hs =>
      H s (by rw [keys_cons]; exact List.mem_cons_of_mem _ hs)
    by_cases hp : keyMem sk P = true
    · rcases rem with _ | ⟨⟨pk, pv⟩, prest⟩
      · simp only [joinLoop, hp, if_true]
        rw [keys_cons, List.filter_cons_of_pos (by simpa using hskS), ih [] H', keys_cons]
      · by_cases hpk : (pk == sk) = true
        · simp only [joinLoop, hp, if_true, hpk]
          rw [keys_cons, List.filter_cons_of_pos (by simpa using hskS), ih prest H', keys_cons]
        · have hpke : (pk == sk) = false := by simpa using hpk
          simp only [joinLoop, hp, if_true, hpke, Bool.false_eq_true, if_false]
          rw [keys_cons, List.filter_cons_of_pos (by simpa using hskS),
            ih ((pk, pv) :: prest) H', keys_cons]
    · rw [Bool.not_eq_true] at hp
      simp only [joinLoop, hp, Bool.false_eq_true, if_false]
      rw [keys_append, List.filter_append, keys_cons,
        List.filter_cons_of_pos (by simpa using hskS), ih (flushPrim S rem).2 H']
      have hfl : (keys (flushPrim S rem).1).filter (fun k => keyMem k S) = [] := by
        refine List.filter_eq_nil_iff.mpr ?_
        intro a ha
        simp [flushPrim_fst_not_sec S rem a ha]
      rw [hfl, keys_cons, List.nil_append]

lemma joinLoop_prim_filter {V W : Type} (P : List (String × V)) (S : List (String × W)) :
    ∀ (srest : List (String × W)) (rem : List (String × V)),
      (∀ s ∈ keys srest, keyMem s S = true) →
      (keys (joinLoop P S srest rem)).filter (fun k => !keyMem k S) =
        (keys rem).filter (fun k => !keyMem k S) := by
  intro srest
  induction srest with
  | nil =>
    intro rem _
    rw [joinLoop_nil_keys, List.filter_filter]
    simp
  | cons ss srest ih =>
    obtain ⟨sk, sv⟩ := ss
    intro rem H
    have hskS : keyMem sk S = true := H sk (by rw [keys_cons]; exact List.mem_cons_self _ _)
    have H' : ∀ s ∈ keys srest, keyMem s S = true := fun s hs =>
      H s (by rw [keys_cons]; exact List.mem_cons_of_mem _ hs)
    by_cases hp : keyMem sk P = true
    · rcases rem with _ | ⟨⟨pk, pv⟩, prest⟩
      · simp only [joinLoop, hp, if_true]
        rw [keys_cons, List.filter_cons_of_neg (by simp [hskS]), ih [] H']
      · by_cases hpk : (pk == sk) = true
        · have hpke : pk = sk := by simpa using hpk
          simp only [joinLoop, hp, if_true, hpk]
          rw [keys_cons, List.filter_cons_of_neg (by simp [hskS]), ih prest H', keys_cons]
          subst hpke
          rw [List.filter_cons_of_neg (by simp [hskS])]
        · have hpke : (pk == sk) = false := by simpa using hpk
          simp only [joinLoop, hp, if_true, hpke, Bool.false_eq_true, if_false]
          rw [keys_cons, List.filter_cons_of_neg (by simp [hskS]),
            ih ((pk, pv) :: prest) H']
    · rw [Bool.not_eq_true] at hp
      simp only [joinLoop, hp, Bool.false_eq_true, if_false]
      rw [keys_append, List.filter_append, keys_cons,
        List.filter_cons_of_neg (by simp [hskS]), ih (flushPrim S rem).2 H']
      have hfl : (keys (flushPrim S rem).1).filter (fun k => !keyMem k S) =
          keys (flushPrim S rem).1 := by
        refine List.filter_eq_self.mpr ?_
        intro a ha
        simp [flushPrim_fst_not_sec S rem a ha]
      rw [hfl, ← flushPrim_filter]

end ProfileHelper

section MergeClaims

open ProfileHelper

/-- C1: on the golden inputs (primary key order a,l,x,c,d,e,b,z,q and
secondary key order a,b,c,e,f,x,q) the OrderedUnion merge produces the key
order a,b,c,e,l,f,x,q,d,z, each key mapped to the pair of its primary value
or absent and its secondary value or absent. -/
theorem claim_C1 :
    keys (join_dicts goldenPrimary goldenSecondary) =
      ["a", "b", "c", "e", "l", "f", "x", "q", "d", "z"] ∧
    join_dicts goldenPrimary goldenSecondary =
      ["a", "b", "c", "e", "l", "f", "x", "q", "d", "z"].map
        (fun k => (k, (getVal k goldenPrimary, getVal k goldenSecondary))) :=
  ⟨rfl, rfl⟩

/-- C2: for every pair of key-ordered mappings (no duplicate keys), the
merge output has no duplicate keys, its key set is exactly the union of the
two input key sets, and every entry pairs the primary lookup with the
secondary lookup, a missing side being absent. -/
theorem claim_C2 {V W : Type} (prim : List (String × V)) (sec : List (String × W))
    (hp : (keys prim).Nodup) (hs : (keys sec).Nodup) :
    (keys (join_dicts prim sec)).Nodup ∧
    (∀ k, k ∈ keys (join_dicts prim sec) ↔ k ∈ keys prim ∨ k ∈ keys sec) ∧
    (∀ k vw, (k, vw) ∈ join_dicts prim sec → vw = (getVal k prim, getVal k sec)) := by
  have hH : ∀ s ∈ keys sec, keyMem s sec = true := fun s hs => (keyMem_iff s sec).mpr hs
  have hperm := joinLoop_keys_perm prim sec sec prim hH
  rw [← join_dicts] at hperm
  refine ⟨?_, ?_, ?_⟩
  · refine hperm.nodup_iff.mpr ?_
    refine List.Nodup.append ?_ ?_ ?_
    · exact hs
    · exact hp.filter _
    · intro a ha hb
      have := List.of_mem_filter hb
      rw [Bool.not_eq_true', keyMem_false_iff] at this
      exact this ha
  · intro k
    rw [hperm.mem_iff, List.mem_append, List.mem_filter]
    constructor
    · rintro (h | ⟨h, _⟩)
      · exact Or.inr h
      · exact Or.inl h
    · rintro (h | h)
      · by_cases hk : k ∈ keys sec
        · exact Or.inl hk
        · exact Or.inr ⟨h, by rw [Bool.not_eq_true', keyMem_false_iff]; exact hk⟩
      · exact Or.inl h
  · exact joinLoop_values hp hs sec prim (List.Sublist.refl sec) (List.Sublist.refl prim)

/-- C2 witness: the universal statement applied to the golden inputs. -/
theorem claim_C2_witness :
    (keys (join_dicts goldenPrimary goldenSecondary)).Nodup ∧
    (∀ k, k ∈ keys (join_dicts goldenPrimary goldenSecondary) ↔
      k ∈ keys goldenPrimary ∨ k ∈ keys goldenSecondary) ∧
    (∀ k vw, (k, vw) ∈ join_dicts goldenPrimary goldenSecondary →
      vw = (getVal k goldenPrimary, getVal k goldenSecondary)) :=
  claim_C2 goldenPrimary goldenSecondary (by decide) (by decide)

/-- C3: the merge preserves relative order in two directions: two keys in
order in the secondary mapping stay in that order in the output, and two
keys in order in the primary mapping neither of which occurs in the
secondary mapping stay in that order in the output. -/
theorem claim_C3 {V W : Type} (prim : List (String × V)) (sec : List (String × W))
    (k1 k2 : String) :
    (List.Sublist [k1, k2] (keys sec) →
      List.Sublist [k1, k2] (keys (join_dicts prim sec))) ∧
    (keyMem k1 sec = false → keyMem k2 sec = false →
      List.Sublist [k1, k2] (keys prim) →
      List.Sublist [k1, k2] (keys (join_dicts prim sec))) := by
  have hH : ∀ s ∈ keys sec, keyMem s sec = true := fun s hs => (keyMem_iff s sec).mpr hs
  constructor
  · intro h12
    have hsec := joinLoop_sec_filter prim sec sec prim hH
    rw [← join_dicts] at hsec
    have : List.Sublist [k1, k2]
        ((keys (join_dicts prim sec)).filter (fun k => keyMem k sec)) := hsec ▸ h12
    exact this.trans (List.filter_sublist _)
  · intro h1 h2 h12
    have hprim := joinLoop_prim_filter prim sec sec prim hH
    rw [← join_dicts] at hprim
    have hf : List.Sublist ([k1, k2].filter (fun k => !keyMem k sec))
        ((keys prim).filter (fun k => !keyMem k sec)) := h12.filter _
    rw [List.filter_cons_of_pos (by simp [h1]), List.filter_cons_of_pos (by simp [h2]),
      List.filter_nil] at hf
    rw [← hprim] at hf
    exact hf.trans (List.filter_sublist _)

/-- C3 witness: on the golden inputs, keys b and x both occur in the
secondary mapping in that order and appear in that order in the output, and
keys l and d occur only in the primary mapping in that order and appear in
that order in the output. -/
theorem claim_C3_witness :
    List.Sublist ["b", "x"] (keys (join_dicts goldenPrimary goldenSecondary)) ∧
    List.Sublist ["l", "d"] (keys (join_dicts goldenPrimary goldenSecondary)) :=
  ⟨(claim_C3 goldenPrimary goldenSecondary "b" "x").1 (by decide),
   (claim_C3 goldenPrimary goldenSecondary "l" "d").2 (by decide) (by decide) (by decide)⟩

end MergeClaims

section NameClaim

open ProfileHelper

/-- C4: the Name extractor follows exactly the rule of the spec: the given
name is the first name or empty, the nick token is the parenthesized nick
name when present and different from the first name, the given cluster is
the space-join of the non-empty tokens among given, nick and middle name;
with a last name the result is the last name alone for an empty cluster and
last-comma-cluster otherwise; without one it is the cluster when non-empty
and otherwise the no-name fallback naming the person id.  The golden values
of the unit test are listed as corroboration. -/
theorem claim_C4 :
    (∀ p : Profile,
      _extract_name p =
        (let given := p.first_name.getD ""
         let nick := if p.nick_name.getD "" ≠ "" ∧ p.nick_name.getD "" ≠ p.first_name.getD ""
                     then "(" ++ p.nick_name.getD "" ++ ")" else ""
         let given_cluster := String.intercalate " "
           (([given, nick, p.middle_name.getD ""]).filter (fun t => t ≠ ""))
         if p.last_name.getD "" ≠ "" then
           (if given_cluster = "" then p.last_name.getD ""
            else p.last_name.getD "" ++ ", " ++ given_cluster)
         else if given_cluster ≠ "" then given_cluster
         else "No name, id " ++ p.person_id)) ∧
    _extract_name ⟨"1463", some "first", some "middle", some "last", some "nick", []⟩ =
      "last, first (nick) middle" ∧
    _extract_name ⟨"1463", some "first", some "middle", some "last", some "first", []⟩ =
      "last, first middle" ∧
    _extract_name ⟨"1463", some "first", some "middle", some "last", none, []⟩ =
      "last, first middle" ∧
    _extract_name ⟨"1463", some "first", none, some "last", none, []⟩ =
      "last, first" ∧
    _extract_name ⟨"1463", some "first", none, some "last", some "nicker", []⟩ =
      "last, first (nicker)" ∧
    _extract_name ⟨"1463", none, none, some "last", some "nicker", []⟩ =
      "last, (nicker)" ∧
    _extract_name ⟨"1463", none, none, none, some "nicker", []⟩ =
      "(nicker)" ∧
    _extract_name ⟨"1463", none, none, none, none, []⟩ =
      "No name, id 1463" :=
  ⟨fun _ => rfl, rfl, rfl, rfl, rfl, rfl, rfl, rfl, rfl⟩

end NameClaim

namespace ProfileHelper

lemma scChars_length : scChars.length = 6 := rfl

lemma bareChars_length : bareChars.length = 4 := rfl

lemma brSplit_sc (y : List Char) : brSplit (scChars ++ y) = [] :: brSplit y := rfl

lemma take6_bare_ne_sc (y : List Char) : (bareChars ++ y).take 6 ≠ scChars := by
  intro h
  have he : bareChars ++ y = '<' :: 'b' :: 'r' :: '>' :: y := rfl
  rw [he] at h
  simp only [List.take_succ_cons, scChars] at h
  injection h with h1 h
  injection h with h2 h
  injection h with h3 h
  injection h with h4 h
  exact absurd h4 (by decide)

lemma brSplit_bare (y : List Char) : brSplit (bareChars ++ y) = [] :: brSplit y := rfl

lemma head?_take {z : List Char} {n : Nat} {a : Char} {l : List Char}
    (h : z.take n = a :: l) : z.head? = some a := by
  cases z with
  | nil => simp at h
  | cons b t =>
    cases n with
    | zero => simp at h
    | succ m =>
      rw [List.take_succ_cons] at h
      injection h with h1 h2
      rw [h1]
      rfl

lemma not_take6_sc_append {x z : List Char} (hx : x ≠ []) (hx6 : x.take 6 ≠ scChars)
    (hz : z.head? = some '<') : (x ++ z).take 6 ≠ scChars := by
  intro h
  rcases x with _ | ⟨c1, x⟩
  · exact hx rfl
  rcases x with _ | ⟨c2, x⟩
  · rw [List.cons_append, List.nil_append, List.take_succ_cons] at h
    simp only [scChars] at h
    injection h with h1 h
    exact absurd (hz.symm.trans (head?_take h)) (by simp)
  rcases x with _ | ⟨c3, x⟩
  · simp only [List.cons_append, List.nil_append, List.take_succ_cons, scChars] at h
    injection h with h1 h
    injection h with h2 h
    exact absurd (hz.symm.trans (head?_take h)) (by simp)
  rcases x with _ | ⟨c4, x⟩
  · simp only [List.cons_append, List.nil_append, List.take_succ_cons, scChars] at h
    injection h with h1 h
    injection h with h2 h
    injection h with h3 h
    exact absurd (hz.symm.trans (head?_take h)) (by simp)
  rcases x with _ | ⟨c5, x⟩
  · simp only [List.cons_append, List.nil_append, List.take_succ_cons, scChars] at h
    injection h with h1 h
    injection h with h2 h
    injection h with h3 h
    injection h with h4 h
    exact absurd (hz.symm.trans (head?_take h)) (by simp)
  rcases x with _ | ⟨c6, x⟩
  · simp only [List.cons_append, List.nil_append, List.take_succ_cons, scChars] at h
    injection h with h1 h
    injection h with h2 h
    injection h with h3 h
    injection h with h4 h
    injection h with h5 h
    exact absurd (hz.symm.trans (head?_take h)) (by simp)
  · refine hx6 ?_
    simp only [List.cons_append, List.take_succ_cons] at h ⊢
    simp only [List.take_zero] at h ⊢
    have happ : (x ++ z).take 0 = x.take 0 := by simp
    exact h

lemma not_take4_bare_append {x z : List Char} (hx : x ≠ []) (hx4 : x.take 4 ≠ bareChars)
    (hz : z.head? = some '<') : (x ++ z).take 4 ≠ bareChars := by
  intro h
  rcases x with _ | ⟨c1, x⟩
  · exact hx rfl
  rcases x with _ | ⟨c2, x⟩
  · rw [List.cons_append, List.nil_append, List.take_succ_cons] at h
    simp only [bareChars] at h
    injection h with h1 h
    exact absurd (hz.symm.trans (head?_take h)) (by simp)
  rcases x with _ | ⟨c3, x⟩
  · simp only [List.cons_append, List.nil_append, List.take_succ_cons, bareChars] at h
    injection h with h1 h
    injection h with h2 h
    exact absurd (hz.symm.trans (head?_take h)) (by simp)
  rcases x with _ | ⟨c4, x⟩
  · simp only [List.cons_append, List.nil_append, List.take_succ_cons, bareChars] at h
    injection h with h1 h
    injection h with h2 h
    injection h with h3 h
    exact absurd (hz.symm.trans (head?_take h)) (by simp)
  · refine hx4 ?_
    simp only [List.cons_append, List.take_succ_cons] at h ⊢
    simp only [List.take_zero] at h ⊢
    exact h

lemma brSplit_cons_default {c : Char} {cs : List Char}
    (h6 : (c :: cs).take 6 ≠ scChars) (h4 : (c :: cs).take 4 ≠ bareChars) :
    brSplit (c :: cs) = consHead c (brSplit cs) := by
  rw [brSplit.eq_def]
  split
  · rename_i rest heq
    exact absurd (by rw [heq]; rfl) h6
  · rename_i rest heq
    exact absurd (by rw [heq]; rfl) h4
  · rename_i c' cs' heq
    injection heq with hc hcs
    rw [hc, hcs]
  · rename_i heq
    cases heq

/-- Splitting on line-break markers treats the bare and the self-closing
marker alike, in any context. -/
lemma brSplit_marker (x y : List Char) :
    brSplit (x ++ (scChars ++ y)) = brSplit (x ++ (bareChars ++ y)) := by
  generalize hn : x.length = n
  induction n using Nat.strong_induction_on generalizing x y with
  | _ n ih =>
  subst hn
  rcases hx : x with _ | ⟨c, x'⟩
  · rw [List.nil_append, List.nil_append, brSplit_sc, brSplit_bare]
  · subst hx
    by_cases h6 : (c :: x').take 6 = scChars
    · have hlen : 6 ≤ (c :: x').length := by
        have := congrArg List.length h6
        simp only [List.length_take, scChars_length] at this
        omega
      have hdecomp : c :: x' = scChars ++ (c :: x').drop 6 := by
        conv_lhs => rw [← List.take_append_drop 6 (c :: x'), h6]
      rw [hdecomp, List.append_assoc, List.append_assoc]
      rw [brSplit_sc]
      rw [brSplit_sc]
      have hlt : ((c :: x').drop 6).length < (c :: x').length := by
        rw [List.length_drop]
        omega
      rw [ih _ hlt _ y rfl]
    · by_cases h4 : (c :: x').take 4 = bareChars
      · have hlen : 4 ≤ (c :: x').length := by
          have := congrArg List.length h4
          simp only [List.length_take, bareChars_length] at this
          omega
        have hdecomp : c :: x' = bareChars ++ (c :: x').drop 4 := by
          conv_lhs => rw [← List.take_append_drop 4 (c :: x'), h4]
        rw [hdecomp, List.append_assoc, List.append_assoc]
        rw [brSplit_bare]
        rw [brSplit_bare]
        have hlt : ((c :: x').drop 4).length < (c :: x').length := by
          rw [List.length_drop]
          omega
        rw [ih _ hlt _ y rfl]
      · have hzsc : (scChars ++ y).head? = some '<' := rfl
        have hzbare : (bareChars ++ y).head? = some '<' := rfl
        have n6a := not_take6_sc_append (List.cons_ne_nil c x') h6 hzsc
        have n4a := not_take4_bare_append (List.cons_ne_nil c x') h4 hzsc
        have n6b := not_take6_sc_append (List.cons_ne_nil c x') h6 hzbare
        have n4b := not_take4_bare_append (List.cons_ne_nil c x') h4 hzbare
        rw [List.cons_append, List.cons_append]
        rw [brSplit_cons_default (by simpa using n6a) (by simpa using n4a),
          brSplit_cons_default (by simpa using n6b) (by simpa using n4b)]
        have hlt : x'.length < (c :: x').length := by simp
        rw [ih _ hlt _ y rfl]

/-- The marker equivalence in the left-nested association produced by the
chained append notation. -/
lemma brSplit_marker' (x y : List Char) :
    brSplit (x ++ scChars ++ y) = brSplit (x ++ bareChars ++ y) := by
  rw [List.append_assoc, List.append_assoc]
  exact brSplit_marker x y

end ProfileHelper

section AddressClaim

open ProfileHelper

/-- C5: the address extractor returns an empty sequence for an absent or
empty entry, and otherwise one string joining with semicolons the street
lines (the street address split on line-break markers) followed by the
city-space-state-space-zip line; the bare and the self-closing marker
spellings produce identical results in any context.  The golden values of
the unit test are listed as corroboration. -/
theorem claim_C5 :
    (∀ ex : _AddressExtractor, ex._extract_entry none = []) ∧
    (∀ (ex : _AddressExtractor) (a : AddressRec),
      ex._extract_entry (some a) =
        [String.intercalate ";"
          (streetLines a.street_address ++ [a.city ++ " " ++ a.state ++ " " ++ a.zip])]) ∧
    (∀ (ex : _AddressExtractor) (pre post city state zip : String),
      ex._extract_entry (some ⟨pre ++ "<br>" ++ post, city, state, zip⟩) =
        ex._extract_entry (some ⟨pre ++ "<br />" ++ post, city, state, zip⟩)) ∧
    _AddressExtractor._extract_entry ⟨"name", "12345"⟩
        (some ⟨"1600 Pennsylvania AV", "Washington", "DC", "99999"⟩) =
      ["1600 Pennsylvania AV;Washington DC 99999"] ∧
    _AddressExtractor._extract_entry ⟨"name", "12345"⟩
        (some ⟨"1600 Pennsylvania AV<br>Rm 222", "Washington", "DC", "99999"⟩) =
      ["1600 Pennsylvania AV;Rm 222;Washington DC 99999"] ∧
    _AddressExtractor._extract_entry ⟨"name", "12345"⟩
        (some ⟨"1600 Pennsylvania AV<br />Rm 222", "Washington", "DC", "99999"⟩) =
      ["1600 Pennsylvania AV;Rm 222;Washington DC 99999"] := by
  refine ⟨fun ex => rfl, fun ex a => rfl, ?_, rfl, rfl, rfl⟩
  intro ex pre post city state zip
  show extractAddress _ = extractAddress _
  have hdata1 : (pre ++ "<br>" ++ post).data = pre.data ++ bareChars ++ post.data := by
    rw [String.data_append, String.data_append]
    rfl
  have hdata2 : (pre ++ "<br />" ++ post).data = pre.data ++ scChars ++ post.data := by
    rw [String.data_append, String.data_append]
    rfl
  simp only [extractAddress, streetLines, hdata1, hdata2]
  rw [← brSplit_marker']

end AddressClaim

namespace ProfileHelper

lemma personDiffs_values_ne (refCat testCat : List FieldSpec) (refP testP : Profile) :
    ∀ fd ∈ personDiffs refCat testCat refP testP,
      fd.primary_values ≠ fd.secondary_values := by
  intro fd hfd
  rw [personDiffs, List.mem_append] at hfd
  rcases hfd with h1 | h2
  · rw [nameDiffList] at h1
    by_cases hn : _extract_name refP = _extract_name testP
    · rw [if_pos hn] at h1
      cases h1
    · rw [if_neg hn] at h1
      rcases List.mem_singleton.mp h1 with rfl
      intro hcon
      simp only [List.cons.injEq] at hcon
      exact hn hcon.1
  · rw [fieldDiffList] at h2
    obtain ⟨lbl, _, hsome⟩ := List.mem_filterMap.mp h2
    by_cases heq : fieldValues refCat refP lbl = fieldValues testCat testP lbl
    · rw [if_pos heq] at hsome
      cases hsome
    · rw [if_neg heq] at hsome
      injection hsome with h
      subst h
      exact heq

lemma mem_compare_profiles {refCat testCat : List FieldSpec}
    {refProfiles testProfiles : List (String × Profile)} {pd : PersonDiff}
    (hmem : pd ∈ compare_profiles refCat testCat refProfiles testProfiles) :
    ∃ q ∈ refProfiles, ∃ testP, getVal q.1 testProfiles = some testP ∧
      pd.diffs = personDiffs refCat testCat q.2 testP ∧
      personDiffs refCat testCat q.2 testP ≠ [] := by
  rw [compare_profiles, List.mem_insertionSort] at hmem
  obtain ⟨q, hq, hf⟩ := List.mem_filterMap.mp hmem
  rw [comparePerson] at hf
  rcases hgv : getVal q.1 testProfiles with _ | testP
  · rw [hgv] at hf
    cases hf
  · rw [hgv] at hf
    dsimp only at hf
    by_cases hds : personDiffs refCat testCat q.2 testP = []
    · rw [if_pos hds] at hf
      cases hf
    · rw [if_neg hds] at hf
      injection hf with h
      subst h
      exact ⟨q, hq, testP, hgv, rfl, hds⟩

lemma personDiffs_self (cat : List FieldSpec) (p : Profile) :
    personDiffs cat cat p p = [] := by
  rw [personDiffs, nameDiffList, if_pos rfl, fieldDiffList, List.nil_append]
  rw [List.filterMap_eq_nil_iff]
  intro lbl _
  rw [if_pos rfl]

end ProfileHelper

section DifferClaims

open ProfileHelper

/-- C6: every report of compare_profiles satisfies the three invariants: no
field diff with equal normalized value sequences on both sides, no person
diff with an empty diff list, and the person diffs sorted ascending by
display name (lexicographic string order, case-sensitive). -/
theorem claim_C6 (refCat testCat : List FieldSpec)
    (refProfiles testProfiles : List (String × Profile)) :
    (∀ pd ∈ compare_profiles refCat testCat refProfiles testProfiles,
      ∀ fd ∈ pd.diffs, fd.primary_values ≠ fd.secondary_values) ∧
    (∀ pd ∈ compare_profiles refCat testCat refProfiles testProfiles,
      pd.diffs ≠ []) ∧
    List.Pairwise (fun a b : PersonDiff => a.display_name ≤ b.display_name)
      (compare_profiles refCat testCat refProfiles testProfiles) := by
  refine ⟨?_, ?_, ?_⟩
  · intro pd hpd fd hfd
    obtain ⟨q, _, testP, _, hdiffs, _⟩ := mem_compare_profiles hpd
    rw [hdiffs] at hfd
    exact personDiffs_values_ne refCat testCat q.2 testP fd hfd
  · intro pd hpd
    obtain ⟨q, _, testP, _, hdiffs, hne⟩ := mem_compare_profiles hpd
    rw [hdiffs]
    exact hne
  · exact List.sorted_insertionSort byNameLe
      (refProfiles.filterMap (comparePerson refCat testCat testProfiles))

/-- C6 witness: on a concrete pair of snapshots differing in one nickname,
the report's person diff has a non-empty diff list and its Name field diff
has unequal value sequences. -/
theorem claim_C6_witness :
    (PersonDiff.mk "Lee, Ann" [⟨"Name", ["Lee, Ann"], ["Lee, Ann (Nan)"]⟩]).diffs ≠ [] ∧
    (FieldDiff.mk "Name" ["Lee, Ann"] ["Lee, Ann (Nan)"]).primary_values ≠
      (FieldDiff.mk "Name" ["Lee, Ann"] ["Lee, Ann (Nan)"]).secondary_values :=
  ⟨(claim_C6 [] [] [("p1", ⟨"p1", some "Ann", none, some "Lee", none, []⟩)]
      [("p1", ⟨"p1", some "Ann", none, some "Lee", some "Nan", []⟩)]).2.1
      ⟨"Lee, Ann", [⟨"Name", ["Lee, Ann"], ["Lee, Ann (Nan)"]⟩]⟩ (by decide),
   (claim_C6 [] [] [("p1", ⟨"p1", some "Ann", none, some "Lee", none, []⟩)]
      [("p1", ⟨"p1", some "Ann", none, some "Lee", some "Nan", []⟩)]).1
      ⟨"Lee, Ann", [⟨"Name", ["Lee, Ann"], ["Lee, Ann (Nan)"]⟩]⟩ (by decide)
      ⟨"Name", ["Lee, Ann"], ["Lee, Ann (Nan)"]⟩ (by decide)⟩

/-- C7: comparing a snapshot (one catalog and one profile collection with
unique person ids) against itself yields the empty report. -/
theorem claim_C7 (cat : List FieldSpec) (profiles : List (String × Profile))
    (h : (keys profiles).Nodup) :
    compare_profiles cat cat profiles profiles = [] := by
  rw [compare_profiles]
  have hnil : profiles.filterMap (comparePerson cat cat profiles) = [] := by
    rw [List.filterMap_eq_nil_iff]
    intro q hq
    obtain ⟨k, p⟩ := q
    rw [comparePerson]
    have hgv : getVal k profiles = some p := getVal_nodup_mem h hq
    rw [hgv]
    dsimp only
    rw [if_pos (personDiffs_self cat p)]
  rw [hnil]
  rfl

/-- C7 witness: a concrete one-person snapshot compared against itself
yields the empty report. -/
theorem claim_C7_witness :
    compare_profiles [⟨"101", "Phone", "phone", "Communication"⟩]
      [⟨"101", "Phone", "phone", "Communication"⟩]
      [("p1", ⟨"p1", some "Ann", none, some "Lee", none,
        [("101", .multi [⟨"mobile", "(333) 543-2100", true, false⟩])]⟩)]
      [("p1", ⟨"p1", some "Ann", none, some "Lee", none,
        [("101", .multi [⟨"mobile", "(333) 543-2100", true, false⟩])]⟩)] = [] :=
  claim_C7 _ _ (by decide)

end DifferClaims

namespace Breeze

lemma firstOccur_eq_zero_iff (hay sub : List Char) :
    firstOccur hay sub = some 0 ↔ sub.isPrefixOf hay = true := by
  constructor
  · intro h
    by_cases hp : sub.isPrefixOf hay = true
    · exact hp
    · exfalso
      cases hay with
      | nil =>
        rw [firstOccur.eq_def, if_neg hp] at h
        exact Option.noConfusion h
      | cons c t =>
        rw [firstOccur.eq_def, if_neg hp] at h
        dsimp only at h
        rw [Option.map_eq_some'] at h
        obtain ⟨m, _, hm⟩ := h
        exact Nat.succ_ne_zero m hm
  · intro h
    rw [firstOccur.eq_def, if_pos h]

lemma pyFind_eq_zero_iff (s sub : String) :
    pyFind s sub = 0 ↔ sub.data.isPrefixOf s.data = true := by
  rcases ho : firstOccur s.data sub.data with _ | n
  · constructor
    · intro h
      simp [pyFind, ho] at h
    · intro h
      rw [(firstOccur_eq_zero_iff s.data sub.data).mpr h] at ho
      cases ho
  · constructor
    · intro h
      simp only [pyFind, ho] at h
      have hn : n = 0 := by exact_mod_cast h
      subst hn
      exact (firstOccur_eq_zero_iff s.data sub.data).mp ho
    · intro h
      have h2 := (firstOccur_eq_zero_iff s.data sub.data).mpr h
      rw [ho] at h2
      injection h2 with h2
      subst h2
      simp [pyFind, ho]

lemma pyFind_ne_zero_of_https {s : String}
    (h : pyStartsWith s "https://" = true) : ¬ pyFind s ".breezechms." = 0 := by
  intro h0
  rw [pyFind_eq_zero_iff] at h0
  rw [pyStartsWith, List.isPrefixOf_iff_prefix] at h
  rw [List.isPrefixOf_iff_prefix] at h0
  obtain ⟨t1, h1⟩ := h
  obtain ⟨t2, h2⟩ := h0
  rw [← h2] at h1
  have hh := congrArg List.head? h1
  simp at hh

end Breeze

section BreezeClaims

open Breeze

/-- C8 counterexample: a deserialized response that is a sequence
containing the string errors is neither a mapping with an errors or
errorCode key nor the boolean False, yet the request raises BreezeError on
it. -/
theorem claim_C8_counterexample :
    request_outcome (PyVal.list [PyVal.str "errors"]) =
      RequestOutcome.breezeError (PyVal.list [PyVal.str "errors"]) ∧
    (∀ kvs, PyVal.list [PyVal.str "errors"] ≠ PyVal.dict kvs) ∧
    PyVal.list [PyVal.str "errors"] ≠ PyVal.bool false := by
  refine ⟨rfl, ?_, ?_⟩
  · intro kvs h
    cases h
  · intro h
    cases h

/-- C8 amended: from the deserialized response onward, the request returns
the response, raises BreezeError, or raises TypeError; it raises
BreezeError exactly when the response is boolean False or the Python
containment test finds errors or errorCode in it (key membership for a
mapping, element membership for a sequence, substring for a string), and
it raises TypeError exactly when the response is a number or null. -/
theorem claim_C8 (r : PyVal) :
    (request_outcome r = RequestOutcome.ok r ∨
      request_outcome r = RequestOutcome.breezeError r ∨
      request_outcome r = RequestOutcome.typeError) ∧
    (request_outcome r = RequestOutcome.breezeError r ↔ failCondition r) ∧
    (request_outcome r = RequestOutcome.typeError ↔ typeErrorCondition r) := by
  cases r with
  | none =>
    simp [request_outcome, request_succeeded, pyIn, failCondition, typeErrorCondition]
  | bool b =>
    cases b <;>
      simp [request_outcome, request_succeeded, failCondition, typeErrorCondition]
  | int n =>
    simp [request_outcome, request_succeeded, pyIn, failCondition, typeErrorCondition]
  | str s =>
    cases h1 : listInfix "errors".data s.data <;>
      cases h2 : listInfix "errorCode".data s.data <;>
      simp [request_outcome, request_succeeded, pyIn, failCondition,
        typeErrorCondition, h1, h2]
  | list xs =>
    cases h1 : xs.any (strEq "errors") <;>
      cases h2 : xs.any (strEq "errorCode") <;>
      simp [request_outcome, request_succeeded, pyIn, failCondition,
        typeErrorCondition, h1, h2]
  | dict kvs =>
    cases h1 : kvs.any (fun p => p.1 == "errors") <;>
      cases h2 : kvs.any (fun p => p.1 == "errorCode") <;>
      simp [request_outcome, request_succeeded, pyIn, failCondition,
        typeErrorCondition, h1, h2]

/-- C9: the constructor check raises exactly when the url is empty or
absent, or does not start with the https scheme, or the api key is empty
or absent; the breezechms domain test never fires for an https url, so any
https url is accepted. -/
theorem claim_C9 (breeze_url api_key : Option String) :
    init_raises breeze_url api_key = true ↔
      (strTruthy breeze_url = false ∨
        pyStartsWith (breeze_url.getD "") "https://" = false ∨
        strTruthy api_key = false) := by
  cases ht : strTruthy breeze_url with
  | false => simp [init_raises, ht]
  | true =>
    cases hs : pyStartsWith (breeze_url.getD "") "https://" with
    | false => simp [init_raises, ht, hs]
    | true =>
      have hf : (pyFind (breeze_url.getD "") ".breezechms." != 0) = true := by
        simpa using pyFind_ne_zero_of_https hs
      simp [init_raises, ht, hs, hf]

/-- C9 witness: an https url on a non-breezechms domain with a non-empty
api key is accepted. -/
theorem claim_C9_witness :
    init_raises (some "https://example.org") (some "k") = false := by
  have h := claim_C9 (some "https://example.org") (some "k")
  rw [Bool.eq_false_iff]
  intro hc
  rcases h.mp hc with h1 | h1 | h1 <;> revert h1 <;> decide

/-- C10 counterexample: with include_family truthy and person_id supplied
but falsy (the integer zero), list_contributions raises even though the
claim promises no error when person_id is supplied. -/
theorem claim_C10_counterexample :
    list_contributions_raises
      [("include_family", PyVal.bool true), ("person_id", PyVal.int 0)] = true ∧
    (List.find? (fun p => p.1 == "person_id")
      [("include_family", PyVal.bool true), ("person_id", PyVal.int 0)]).isSome = true := by
  exact ⟨rfl, rfl⟩

/-- C10 amended: the argument check of list_contributions raises exactly
when the include_family keyword is truthy and the person_id keyword is
absent or falsy, before any request is issued. -/
theorem claim_C10 (kwargs : List (String × PyVal)) :
    list_contributions_raises kwargs = true ↔
      (truthy (kwargsGet kwargs "include_family") = true ∧
        truthy (kwargsGet kwargs "person_id") = false) := by
  rw [list_contributions_raises]
  cases truthy (kwargsGet kwargs "include_family") <;>
    cases truthy (kwargsGet kwargs "person_id") <;> simp

end BreezeClaims


